import Mathlib

/-!
Verification of the fan-out/fan-in pipeline of tricoderu/go-project-sprint-9.

The repository contains two variants of the pipeline:
  * src/precode.go — the final variant: Generator, Worker (send, then sleep),
    one merge-coordinator goroutine per worker output plus a WaitGroup-based
    closer for the shared result channel chOut, a collector loop, and a
    verifier tail in main.
  * src/precode1.go and src/unnamed/part_000 — a draft variant whose Worker
    also owns the per-worker counter and whose fan-in is a single goroutine
    draining the worker outputs one after the other in index order.

Channels are modelled as the lists of values that cross them; goroutine
interleaving is modelled by explicit nondeterminism: the number of items the
Generator emits before it observes cancellation, the assignment of intake
items to workers, and a labelled small-step relation for the fan-in stage.
Item is Go int64; overflow is out of scope for runs of this length (the
tallies compare equal independently of wrap-around since both sides fold the
same multiset), so items are modelled as Int.
-/

namespace Sprint9

/-! ## Generator (src/precode.go lines 18-34, src/precode1.go lines 11-23) -/

/-- Events of the Generator goroutine: a send of i into chIn, the synchronous
observer call fn i that follows it, and the close of chIn on cancellation. -/
inductive GenEvent
  | publish (i : Int)
  | observe (i : Int)
  | closeIntake
deriving DecidableEq, Repr

/-- Embedding of Generator: the select loop either sends the counter i into
chIn and then calls fn i and increments i, or observes ctx.Done, closes chIn
and returns. The parameter n resolves the only nondeterminism: how many times
the send case of the select wins before the Done case is taken. -/
def generatorRun : Nat → Int → List GenEvent
  | 0, _ => [GenEvent.closeIntake]
  | n + 1, i => GenEvent.publish i :: GenEvent.observe i :: generatorRun n (i + 1)

/-- Trace of a Generator run that emits n items, starting from i = 1 as in the
source. -/
def generatorTrace (n : Nat) : List GenEvent :=
  generatorRun n 1

/-- Items the Generator sent into chIn, in send order. -/
def publishedItems (tr : List GenEvent) : List Int :=
  tr.filterMap fun e =>
    match e with
    | GenEvent.publish i => some i
    | _ => none

/-- Embedding of the observer callback of main (src/precode.go lines 71-74):
inputSum += i; inputCount++ on the pair (inputSum, inputCount). -/
def observerStep : Int × Int → Int → Int × Int
  | (s, c), i => (s + i, c + 1)

/-- Final value of (inputSum, inputCount) after a Generator trace: the fold of
the observer callback over the observe events, starting from zero. -/
def genTallies (tr : List GenEvent) : Int × Int :=
  tr.foldl
    (fun acc e =>
      match e with
      | GenEvent.observe i => observerStep acc i
      | _ => acc)
    (0, 0)

/-- Items 1, 2, ..., n, the sequence the Generator publishes when the send
case wins n times. -/
def itemsUpTo (n : Nat) : List Int :=
  (List.range n).map fun k : Nat => (k : Int) + 1

/-! ## Worker (src/precode.go lines 37-45; src/precode1.go lines 25-32) -/

/-- Events of one Worker goroutine: receive from chIn, send to its dedicated
out channel, the 1ms time.Sleep, the counter increment of the draft variant,
and the close of its out channel. -/
inductive WEvent
  | recv (i : Int)
  | send (i : Int)
  | sleep
  | incr
  | closeOut
deriving DecidableEq, Repr

/-- Embedding of Worker of src/precode.go: for i := range in { out <- i;
time.Sleep(time.Millisecond) }; close(out). The argument is the list of items
this worker receives from chIn before chIn closes. -/
def workerRunP : List Int → List WEvent
  | [] => [WEvent.closeOut]
  | i :: rest => WEvent.recv i :: WEvent.send i :: WEvent.sleep :: workerRunP rest

/-- Embedding of Worker of src/precode1.go and part_000: for i := range in
{ out <- i; time.Sleep(time.Millisecond); *amounts++ }; close(out). -/
def workerRun1 : List Int → List WEvent
  | [] => [WEvent.closeOut]
  | i :: rest =>
      WEvent.recv i :: WEvent.send i :: WEvent.sleep :: WEvent.incr :: workerRun1 rest

/-- Items a worker trace sent to its out channel, in send order. -/
def workerOut (tr : List WEvent) : List Int :=
  tr.filterMap fun e =>
    match e with
    | WEvent.send i => some i
    | _ => none

/-- Final value of the per-worker counter in the draft variant: the number of
increments in the trace. -/
def workerCounter (tr : List WEvent) : Nat :=
  (tr.filter fun e => e = WEvent.incr).length

/-- Modelled from the claim wording for comparison with workerRun1: a worker
that forwards each item only after waiting the per-item delay (receive, sleep,
send, increment). The source worker sends first and sleeps afterwards. -/
def workerRunSpec : List Int → List WEvent
  | [] => [WEvent.closeOut]
  | i :: rest =>
      WEvent.recv i :: WEvent.sleep :: WEvent.send i :: WEvent.incr :: workerRunSpec rest

/-! ## Basic lemmas about the Generator -/

theorem generatorRun_shape (n : Nat) : ∀ i : Int,
    generatorRun n i =
      ((List.range n).map fun k : Nat =>
        [GenEvent.publish (i + (k : Int)), GenEvent.observe (i + (k : Int))]).flatten
        ++ [GenEvent.closeIntake] := by
  induction n with
  | zero => intro i; rfl
  | succ m ih =>
      intro i
      have hmap : (List.range m).map
            ((fun k : Nat =>
              [GenEvent.publish (i + (k : Int)), GenEvent.observe (i + (k : Int))])
              ∘ Nat.succ)
          = (List.range m).map fun k : Nat =>
              [GenEvent.publish (i + 1 + (k : Int)), GenEvent.observe (i + 1 + (k : Int))] := by
        refine List.map_congr_left fun k _ => ?_
        have h : i + ((k : Int) + 1) = i + 1 + (k : Int) := by ring
        simp [Function.comp, Nat.cast_succ, h]
      rw [generatorRun, ih (i + 1), List.range_succ_eq_map, List.map_cons, List.map_map,
        hmap, List.flatten_cons]
      simp

theorem publishedItems_generatorRun (n : Nat) : ∀ i : Int,
    publishedItems (generatorRun n i) = (List.range n).map fun k : Nat => i + (k : Int) := by
  induction n with
  | zero => intro i; rfl
  | succ m ih =>
      intro i
      have hmap : (List.range m).map ((fun k : Nat => i + (k : Int)) ∘ Nat.succ)
          = (List.range m).map fun k : Nat => i + 1 + (k : Int) := by
        refine List.map_congr_left fun k _ => ?_
        have h : i + ((k : Int) + 1) = i + 1 + (k : Int) := by ring
        simp [Function.comp, Nat.cast_succ, h]
      have hstep : publishedItems (generatorRun (m + 1) i)
          = i :: publishedItems (generatorRun m (i + 1)) := by
        simp [generatorRun, publishedItems]
      rw [hstep, ih (i + 1), List.range_succ_eq_map, List.map_cons, List.map_map, hmap]
      simp

theorem publishedItems_generatorTrace (n : Nat) :
    publishedItems (generatorTrace n) = itemsUpTo n := by
  rw [generatorTrace, publishedItems_generatorRun, itemsUpTo]
  exact List.map_congr_left fun k _ => by ring

theorem genTallies_run (n : Nat) : ∀ (i : Int) (p : Int × Int),
    (generatorRun n i).foldl
        (fun acc e =>
          match e with
          | GenEvent.observe j => observerStep acc j
          | _ => acc) p
      = (p.1 + (publishedItems (generatorRun n i)).sum,
         p.2 + (publishedItems (generatorRun n i)).length) := by
  induction n with
  | zero => intro i p; simp [generatorRun, publishedItems]
  | succ m ih =>
      intro i p
      rw [generatorRun]
      simp only [List.foldl_cons, publishedItems, List.filterMap_cons]
      rw [ih (i + 1) (observerStep p i)]
      rcases p with ⟨s, c⟩
      simp only [publishedItems, observerStep, List.sum_cons, List.length_cons,
        Prod.mk.injEq]
      refine ⟨by ring, by push_cast; ring⟩

theorem genTallies_trace (n : Nat) :
    genTallies (generatorTrace n) =
      ((publishedItems (generatorTrace n)).sum,
        ((publishedItems (generatorTrace n)).length : Int)) := by
  unfold genTallies generatorTrace
  rw [genTallies_run]
  simp

theorem itemsUpTo_length (n : Nat) : (itemsUpTo n).length = n := by
  simp [itemsUpTo]

/-! ## Basic lemmas about the Worker -/

theorem workerOut_workerRunP (xs : List Int) : workerOut (workerRunP xs) = xs := by
  induction xs with
  | nil => simp [workerRunP, workerOut]
  | cons x rest ih =>
      simp only [workerRunP, workerOut, List.filterMap_cons] at *
      simpa using ih

theorem workerOut_workerRun1 (xs : List Int) : workerOut (workerRun1 xs) = xs := by
  induction xs with
  | nil => simp [workerRun1, workerOut]
  | cons x rest ih =>
      simp only [workerRun1, workerOut, List.filterMap_cons] at *
      simpa using ih

theorem workerCounter_workerRun1 (xs : List Int) :
    workerCounter (workerRun1 xs) = xs.length := by
  induction xs with
  | nil => simp [workerRun1, workerCounter]
  | cons x rest ih =>
      simp only [workerRun1, workerCounter] at ih ⊢
      simp [List.filter_cons, ih]

theorem workerRun1_shape (xs : List Int) :
    workerRun1 xs =
      (xs.map fun i => [WEvent.recv i, WEvent.send i, WEvent.sleep, WEvent.incr]).flatten
        ++ [WEvent.closeOut] := by
  induction xs with
  | nil => simp [workerRun1]
  | cons x rest ih => simp [workerRun1, ih]

/-! ## Intake fan-out (the shared chIn channel)

Every value the Generator sends into the unbuffered chIn is received by
exactly one Worker; which worker gets which item is scheduling-dependent.
The assignment a names, for each publish index k, the worker that receives
the (k+1)-st item; a worker's input is the subsequence of published items
assigned to it, in publish order. -/

/-- Input list of worker w under assignment a when n items were generated. -/
def workerInput {N : Nat} (a : Nat → Fin N) (n : Nat) (w : Fin N) : List Int :=
  ((List.range n).filter fun k => a k = w).map fun k : Nat => (k : Int) + 1

/-! ## Fan-in stage (src/precode.go lines 89-110)

One coordinator goroutine per worker output channel: for num := range outs[i]
{ chOut <- num; amounts[i]++ }, with a deferred wg.Done; plus the closing
goroutine go func() { wg.Wait(); close(chOut) }(). The state records, for
each coordinator, the items of its output channel not yet forwarded, the
contents of chOut so far, which coordinators have returned (wg.Done ran) and
whether chOut has been closed. -/

structure MergeState (N : Nat) where
  pending : Fin N → List Int
  res : List Int
  done : Fin N → Bool
  closed : Bool

/-- Labels of the fan-in transitions: coordinator i forwards x to chOut,
coordinator i returns (its range loop saw outs[i] closed and empty, the
deferred wg.Done runs), and the closing goroutine closes chOut. -/
inductive MLabel (N : Nat)
  | fwd (i : Fin N) (x : Int)
  | fin (i : Fin N)
  | closeRes
deriving DecidableEq

/-- One scheduler step of the fan-in stage. A coordinator that has not yet
returned forwards the next item of its own output channel — independently of
every other coordinator; a coordinator whose channel is exhausted returns;
the closing goroutine fires only when wg.Wait sees every coordinator done,
and only while chOut is still open (it runs close exactly once). -/
inductive MStep {N : Nat} : MergeState N → MLabel N → MergeState N → Prop
  | fwd (s : MergeState N) (i : Fin N) (x : Int) (rest : List Int)
      (hp : s.pending i = x :: rest) (hd : s.done i = false) :
      MStep s (MLabel.fwd i x)
        { s with pending := Function.update s.pending i rest, res := s.res ++ [x] }
  | fin (s : MergeState N) (i : Fin N)
      (hp : s.pending i = []) (hd : s.done i = false) :
      MStep s (MLabel.fin i) { s with done := Function.update s.done i true }
  | closeRes (s : MergeState N) (hall : ∀ i, s.done i = true) (hc : s.closed = false) :
      MStep s MLabel.closeRes { s with closed := true }

/-- Finite executions of the fan-in stage, with the trace of labels. -/
inductive MTrace {N : Nat} : MergeState N → List (MLabel N) → MergeState N → Prop
  | refl (s : MergeState N) : MTrace s [] s
  | snoc {s t u : MergeState N} {tr : List (MLabel N)} {l : MLabel N} :
      MTrace s tr t → MStep t l u → MTrace s (tr ++ [l]) u

/-- Initial fan-in state: outs w holds everything worker w will have sent to
its output channel, chOut is empty and open, no coordinator has returned. -/
def initMerge {N : Nat} (outs : Fin N → List Int) : MergeState N :=
  { pending := outs, res := [], done := fun _ => false, closed := false }

/-- Items coordinator i forwarded to chOut along a trace, in order. -/
def forwardedBy {N : Nat} (tr : List (MLabel N)) (i : Fin N) : List Int :=
  tr.filterMap fun l =>
    match l with
    | MLabel.fwd j x => if j = i then some x else none
    | _ => none

/-- Items sent to chOut along a trace, in order: the contents of chOut. -/
def allForwards {N : Nat} (tr : List (MLabel N)) : List Int :=
  tr.filterMap fun l =>
    match l with
    | MLabel.fwd _ x => some x
    | _ => none

/-- Final value of amounts[i] (src/precode.go line 99: incremented by
coordinator i at each forward). -/
def amountsFinal {N : Nat} (tr : List (MLabel N)) (i : Fin N) : Int :=
  ((forwardedBy tr i).length : Int)

/-- Embedding of the fan-in of src/precode1.go lines 63-70 (same in
part_000 lines 75-83): a single goroutine drains out 0 to exhaustion, then
out 1, and so on; chOut receives the concatenation in index order. -/
def mergeSequentialRes {N : Nat} (outs : Fin N → List Int) : List Int :=
  ((List.finRange N).map outs).flatten

/-! ## Collector (src/precode.go lines 112-120) -/

/-- Embedding of one iteration of the collector loop: count++; sum += i on
the pair (count, sum). -/
def collectStep : Int × Int → Int → Int × Int
  | (c, s), i => (c + 1, s + i)

/-- Final (count, sum) after draining chOut, whose contents are res. -/
def collect (res : List Int) : Int × Int :=
  res.foldl collectStep (0, 0)

/-! ## Invariants of the fan-in stage -/

theorem append_one_eq_split {α : Type} {l pre post : List α} {a : α}
    (h : l ++ [a] = pre ++ a :: post) (ha : a ∉ l) : pre = l ∧ post = [] := by
  rcases List.eq_nil_or_concat post with rfl | ⟨q, b, rfl⟩
  · obtain ⟨h1, -⟩ := List.append_inj' h rfl
    exact ⟨h1.symm, rfl⟩
  · rw [List.concat_eq_append] at h
    have h2 : l ++ [a] = (pre ++ a :: q) ++ [b] := by
      rw [h]; simp
    obtain ⟨h3, h4⟩ := List.append_inj' h2 rfl
    exfalso
    apply ha
    rw [h3]
    simp

theorem forwardedBy_append {N : Nat} (t1 t2 : List (MLabel N)) (i : Fin N) :
    forwardedBy (t1 ++ t2) i = forwardedBy t1 i ++ forwardedBy t2 i := by
  simp [forwardedBy, List.filterMap_append]

theorem allForwards_append {N : Nat} (t1 t2 : List (MLabel N)) :
    allForwards (t1 ++ t2) = allForwards t1 ++ allForwards t2 := by
  simp [allForwards, List.filterMap_append]

/-- Reachability invariants of the fan-in stage of src/precode.go: each
coordinator has forwarded exactly the consumed prefix of its own output
channel; chOut holds exactly the forwarded items; a coordinator is done
precisely when its return is in the trace; a done coordinator has drained
its channel; chOut is closed precisely when the close is in the trace; and
chOut is closed only once every coordinator is done. -/
theorem mergeMaster {N : Nat} (outs : Fin N → List Int)
    {tr : List (MLabel N)} {s : MergeState N} (h : MTrace (initMerge outs) tr s) :
    (∀ i, forwardedBy tr i ++ s.pending i = outs i)
    ∧ s.res = allForwards tr
    ∧ (∀ i, (s.done i = true ↔ MLabel.fin i ∈ tr))
    ∧ (∀ i, s.done i = true → s.pending i = [])
    ∧ (s.closed = true ↔ MLabel.closeRes ∈ tr)
    ∧ (s.closed = true → ∀ i, s.done i = true) := by
  generalize hinit : initMerge outs = s0 at h
  induction h with
  | refl =>
      subst hinit
      simp [initMerge, forwardedBy, allForwards]
  | @snoc t u tr l h hs ih =>
      obtain ⟨ihA, ihB, ihC, ihD, ihE, ihF⟩ := ih
      cases hs with
      | fwd i x rest hp hd =>
          refine ⟨?_, ?_, ?_, ?_, ?_, ?_⟩
          · intro j
            rw [forwardedBy_append]
            by_cases hij : i = j
            · subst hij
              have hfb : forwardedBy [MLabel.fwd i x] i = [x] := by
                simp [forwardedBy]
              rw [hfb]
              simp only [Function.update_same]
              rw [List.append_assoc]
              have : ([x] ++ rest : List Int) = x :: rest := rfl
              rw [this, ← hp]
              exact ihA i
            · have hfb : forwardedBy [MLabel.fwd i x] j = [] := by
                simp [forwardedBy, hij]
              rw [hfb, List.append_nil]
              dsimp only
              rw [Function.update_noteq (fun hji => hij hji.symm)]
              exact ihA j
          · rw [allForwards_append, ← ihB]
            simp [allForwards]
          · intro j
            constructor
            · intro hj
              exact List.mem_append_left _ ((ihC j).mp hj)
            · intro hj
              rcases List.mem_append.mp hj with hj | hj
              · exact (ihC j).mpr hj
              · simp at hj
          · intro j hj
            have hji : j ≠ i := by
              intro hji
              rw [hji] at hj
              dsimp only at hj
              rw [hj] at hd
              cases hd
            dsimp only
            rw [Function.update_noteq hji]
            dsimp only at hj
            exact ihD j hj
          · constructor
            · intro hcl
              exact List.mem_append_left _ (ihE.mp hcl)
            · intro hcl
              rcases List.mem_append.mp hcl with hcl | hcl
              · exact ihE.mpr hcl
              · simp at hcl
          · exact ihF
      | fin i hp hd =>
          refine ⟨?_, ?_, ?_, ?_, ?_, ?_⟩
          · intro j
            rw [forwardedBy_append]
            have hfb : forwardedBy [MLabel.fin i] j = [] := by
              simp [forwardedBy]
            rw [hfb, List.append_nil]
            exact ihA j
          · rw [allForwards_append, ← ihB]
            simp [allForwards]
          · intro j
            by_cases hji : j = i
            · subst hji
              simp only [Function.update_same]
              simp
            · dsimp only
              rw [Function.update_noteq hji]
              rw [ihC j]
              simp only [List.mem_append, List.mem_singleton]
              constructor
              · exact fun hj => Or.inl hj
              · rintro (hj | hj)
                · exact hj
                · exact absurd (by injection hj) hji
          · intro j hj
            by_cases hji : j = i
            · subst hji; exact hp
            · dsimp only at hj ⊢
              rw [Function.update_noteq hji] at hj
              exact ihD j hj
          · constructor
            · intro hcl
              exact List.mem_append_left _ (ihE.mp hcl)
            · intro hcl
              rcases List.mem_append.mp hcl with hcl | hcl
              · exact ihE.mpr hcl
              · simp at hcl
          · intro hcl j
            by_cases hji : j = i
            · subst hji; simp [Function.update_same]
            · dsimp only
              rw [Function.update_noteq hji]
              exact ihF hcl j
      | closeRes hall hc =>
          refine ⟨?_, ?_, ?_, ?_, ?_, ?_⟩
          · intro j
            rw [forwardedBy_append]
            have hfb : forwardedBy [(MLabel.closeRes : MLabel N)] j = [] := by
              simp [forwardedBy]
            rw [hfb, List.append_nil]
            exact ihA j
          · rw [allForwards_append, ← ihB]
            simp [allForwards]
          · intro j
            rw [ihC j]
            simp only [List.mem_append, List.mem_singleton]
            constructor
            · exact fun hj => Or.inl hj
            · rintro (hj | hj)
              · exact hj
              · cases hj
          · exact ihD
          · simp
          · intro _
            exact hall

/-- From a state where every coordinator is done and chOut is closed, no
further fan-in step is possible. -/
theorem closed_no_step {N : Nat} {s : MergeState N} (hall : ∀ i, s.done i = true)
    (hc : s.closed = true) : ∀ (l : MLabel N) (u : MergeState N), ¬ MStep s l u := by
  intro l u hstep
  cases hstep with
  | fwd i x rest hp hd => rw [hall i] at hd; cases hd
  | fin i hp hd => rw [hall i] at hd; cases hd
  | closeRes h2 h3 => rw [hc] at h3; cases h3

/-- In every fan-in execution the close of chOut, when it occurs, is the last
event of the stage, and every coordinator return precedes it. -/
theorem closeRes_last {N : Nat} (outs : Fin N → List Int)
    {tr : List (MLabel N)} {s : MergeState N} (h : MTrace (initMerge outs) tr s) :
    ∀ pre post, tr = pre ++ MLabel.closeRes :: post →
      post = [] ∧ ∀ i, MLabel.fin i ∈ pre := by
  generalize hinit : initMerge outs = s0 at h
  induction h with
  | refl =>
      intro pre post heq
      exact absurd heq (by simp)
  | @snoc t u tr l h hs ih =>
      subst hinit
      have hM := mergeMaster outs h
      have hnc : MLabel.closeRes ∉ tr := by
        intro hmem
        have hcl : t.closed = true := hM.2.2.2.2.1.mpr hmem
        have hall : ∀ i, t.done i = true := hM.2.2.2.2.2 hcl
        exact closed_no_step hall hcl _ _ hs
      intro pre post heq
      by_cases hl : l = MLabel.closeRes
      · subst hl
        obtain ⟨hpre, hpost⟩ := append_one_eq_split heq hnc
        subst hpre
        refine ⟨hpost, ?_⟩
        cases hs with
        | closeRes hall hc =>
            intro i
            exact hM.2.2.1 i |>.mp (hall i)
      · exfalso
        have hmem : MLabel.closeRes ∈ tr ++ [l] := by
          rw [heq]; simp
        rcases List.mem_append.mp hmem with hmem | hmem
        · exact hnc hmem
        · simp at hmem
          exact hl hmem.symm

/-! ## Multiset accounting -/

/-- As multisets, chOut receives exactly the union over the coordinators of
what each coordinator forwarded. -/
theorem allForwards_eq_sum {N : Nat} (tr : List (MLabel N)) :
    (allForwards tr : Multiset Int) = ∑ i : Fin N, (forwardedBy tr i : Multiset Int) := by
  induction tr with
  | nil => simp [allForwards, forwardedBy]
  | cons l tr ih =>
      cases l with
      | fwd j x =>
          have hall : allForwards (MLabel.fwd j x :: tr) = x :: allForwards tr := by
            simp [allForwards, List.filterMap_cons]
          have hsplit : ∀ i : Fin N, forwardedBy (MLabel.fwd j x :: tr) i
              = if j = i then x :: forwardedBy tr i else forwardedBy tr i := by
            intro i
            by_cases hji : j = i <;> simp [forwardedBy, List.filterMap_cons, hji]
          have hcoe : ∀ i : Fin N,
              ((if j = i then x :: forwardedBy tr i else forwardedBy tr i : List Int) :
                  Multiset Int)
                = (if j = i then ({x} : Multiset Int) else 0)
                  + (forwardedBy tr i : Multiset Int) := by
            intro i
            by_cases hji : j = i <;>
              simp [hji, Multiset.singleton_add, Multiset.cons_coe]
          rw [hall]
          calc ((x :: allForwards tr : List Int) : Multiset Int)
              = ({x} : Multiset Int) + (allForwards tr : Multiset Int) := by
                rw [Multiset.singleton_add, Multiset.cons_coe]
            _ = ({x} : Multiset Int) + ∑ i : Fin N, (forwardedBy tr i : Multiset Int) := by
                rw [ih]
            _ = ∑ i : Fin N, ((if j = i then ({x} : Multiset Int) else 0)
                  + (forwardedBy tr i : Multiset Int)) := by
                rw [Finset.sum_add_distrib, Finset.sum_ite_eq]
                simp
            _ = ∑ i : Fin N, (forwardedBy (MLabel.fwd j x :: tr) i : Multiset Int) := by
                refine Finset.sum_congr rfl fun i _ => ?_
                rw [hsplit i, hcoe i]
      | fin j =>
          have h1 : allForwards (MLabel.fin j :: tr) = allForwards tr := by
            simp [allForwards, List.filterMap_cons]
          have h2 : ∀ i : Fin N, forwardedBy (MLabel.fin j :: tr) i = forwardedBy tr i := by
            intro i; simp [forwardedBy, List.filterMap_cons]
          rw [h1, ih]
          exact Finset.sum_congr rfl fun i _ => by rw [h2 i]
      | closeRes =>
          have h1 : allForwards (MLabel.closeRes :: tr) = allForwards tr := by
            simp [allForwards, List.filterMap_cons]
          have h2 : ∀ i : Fin N,
              forwardedBy (MLabel.closeRes :: tr) i = forwardedBy tr i := by
            intro i; simp [forwardedBy, List.filterMap_cons]
          rw [h1, ih]
          exact Finset.sum_congr rfl fun i _ => by rw [h2 i]

/-- Fan-out is a partition: as multisets, the worker inputs together are
exactly the published items, because the unbuffered chIn hands each item to
exactly one worker. -/
theorem sum_filter_multiset {N : Nat} (a : Nat → Fin N) (l : List Nat) :
    (∑ w : Fin N,
        (((l.filter fun k => a k = w).map fun k : Nat => (k : Int) + 1 : List Int) :
          Multiset Int))
      = ((l.map fun k : Nat => (k : Int) + 1 : List Int) : Multiset Int) := by
  induction l with
  | nil => simp
  | cons k l ih =>
      have hsplit : ∀ w : Fin N,
          (((k :: l).filter fun j => a j = w).map fun j : Nat => (j : Int) + 1 : List Int)
            = if a k = w
                then ((k : Int) + 1) ::
                  ((l.filter fun j => a j = w).map fun j : Nat => (j : Int) + 1)
                else (l.filter fun j => a j = w).map fun j : Nat => (j : Int) + 1 := by
        intro w
        by_cases h : a k = w <;> simp [List.filter_cons, h]
      have hcoe : ∀ w : Fin N,
          ((if a k = w
              then ((k : Int) + 1) ::
                ((l.filter fun j => a j = w).map fun j : Nat => (j : Int) + 1)
              else (l.filter fun j => a j = w).map fun j : Nat => (j : Int) + 1 :
            List Int) : Multiset Int)
            = (if a k = w then ({(k : Int) + 1} : Multiset Int) else 0)
              + (((l.filter fun j => a j = w).map fun j : Nat => (j : Int) + 1 :
                  List Int) : Multiset Int) := by
        intro w
        by_cases h : a k = w <;>
          simp [h, Multiset.singleton_add, Multiset.cons_coe]
      calc (∑ w : Fin N,
            (((k :: l).filter fun j => a j = w).map (fun j : Nat => (j : Int) + 1) :
              Multiset Int))
          = ∑ w : Fin N, ((if a k = w then ({(k : Int) + 1} : Multiset Int) else 0)
              + (((l.filter fun j => a j = w).map fun j : Nat => (j : Int) + 1 :
                  List Int) : Multiset Int)) := by
            refine Finset.sum_congr rfl fun w _ => ?_
            rw [hsplit w, hcoe w]
        _ = ({(k : Int) + 1} : Multiset Int)
              + ∑ w : Fin N,
                (((l.filter fun j => a j = w).map fun j : Nat => (j : Int) + 1 :
                    List Int) : Multiset Int) := by
            rw [Finset.sum_add_distrib, Finset.sum_ite_eq]
            simp
        _ = (((k :: l).map fun j : Nat => (j : Int) + 1 : List Int) : Multiset Int) := by
            rw [ih]
            simp [Multiset.singleton_add, Multiset.cons_coe]

theorem sum_workerInput_multiset {N : Nat} (a : Nat → Fin N) (n : Nat) :
    (∑ w : Fin N, (workerInput a n w : Multiset Int)) = (itemsUpTo n : Multiset Int) := by
  simpa [workerInput, itemsUpTo] using sum_filter_multiset a (List.range n)

/-! ## Collector lemmas -/

theorem collect_foldl (res : List Int) : ∀ p : Int × Int,
    res.foldl collectStep p = (p.1 + res.length, p.2 + res.sum) := by
  induction res with
  | nil => intro p; simp
  | cons x rest ih =>
      intro p
      rcases p with ⟨c, s⟩
      rw [List.foldl_cons, ih]
      simp only [collectStep, List.length_cons, List.sum_cons, Prod.mk.injEq]
      refine ⟨by push_cast; ring, by ring⟩

theorem collect_eq (res : List Int) :
    collect res = ((res.length : Int), res.sum) := by
  rw [collect, collect_foldl]
  simp

theorem card_sum_finset {ι : Type} (s : Finset ι) (f : ι → Multiset Int) :
    Multiset.card (∑ i in s, f i) = ∑ i in s, Multiset.card (f i) := by
  classical
  induction s using Finset.induction_on with
  | empty => simp
  | insert hx ih =>
      rw [Finset.sum_insert hx, Finset.sum_insert hx, Multiset.card_add, ih]

/-- Pieces of a completed fan-in run over the outputs of the precode.go
workers: every coordinator drained everything, chOut received the partition
back, and as a multiset it equals the published items. -/
theorem completed_run_res {N : Nat} (n : Nat) (a : Nat → Fin N)
    {tr : List (MLabel N)} {s : MergeState N}
    (hrun : MTrace (initMerge fun w => workerOut (workerRunP (workerInput a n w))) tr s)
    (hdone : s.closed = true) :
    (∀ w, forwardedBy tr w = workerInput a n w)
    ∧ (s.res : Multiset Int) = (itemsUpTo n : Multiset Int) := by
  have hM := mergeMaster (fun w => workerOut (workerRunP (workerInput a n w))) hrun
  have hall : ∀ i, s.done i = true := hM.2.2.2.2.2 hdone
  have hpend : ∀ i, s.pending i = [] := fun i => hM.2.2.2.1 i (hall i)
  have hfb : ∀ w, forwardedBy tr w = workerInput a n w := by
    intro w
    have h1 := hM.1 w
    rw [hpend w, List.append_nil] at h1
    rw [h1]
    exact workerOut_workerRunP (workerInput a n w)
  refine ⟨hfb, ?_⟩
  rw [hM.2.1, allForwards_eq_sum]
  calc (∑ i : Fin N, (forwardedBy tr i : Multiset Int))
      = ∑ i : Fin N, (workerInput a n i : Multiset Int) := by
        refine Finset.sum_congr rfl fun i _ => ?_
        rw [hfb i]
    _ = (itemsUpTo n : Multiset Int) := sum_workerInput_multiset a n

/-- C1: for every run with any generated count (timeout T > 0 only fixes how
many items the Generator emits, and the per-item delay only fixes scheduling,
both of which are universally quantified here through n, the assignment a and
the fan-in trace), any worker count N ≥ 1, after the pipeline fully drains
(chOut closed), generated-count = collected-count, generated-sum =
collected-sum, and the per-worker amounts sum to generated-count. -/
theorem pipeline_tallies_agree {N : Nat} (n : Nat) (hN : 1 ≤ N) (a : Nat → Fin N)
    (tr : List (MLabel N)) (s : MergeState N)
    (hrun : MTrace (initMerge fun w => workerOut (workerRunP (workerInput a n w))) tr s)
    (hdone : s.closed = true) :
    (genTallies (generatorTrace n)).2 = (collect s.res).1
    ∧ (genTallies (generatorTrace n)).1 = (collect s.res).2
    ∧ (∑ w : Fin N, amountsFinal tr w) = (genTallies (generatorTrace n)).2 := by
  obtain ⟨hfb, hres⟩ := completed_run_res n a hrun hdone
  have hlen : s.res.length = (itemsUpTo n).length := by
    have := congrArg Multiset.card hres
    simpa [Multiset.coe_card] using this
  have hsum : s.res.sum = (itemsUpTo n).sum := by
    have := congrArg Multiset.sum hres
    simpa [Multiset.sum_coe] using this
  have hgen : genTallies (generatorTrace n) = ((itemsUpTo n).sum, ((itemsUpTo n).length : Int)) := by
    rw [genTallies_trace, publishedItems_generatorTrace]
  refine ⟨?_, ?_, ?_⟩
  · rw [hgen, collect_eq, hlen]
  · rw [hgen, collect_eq, hsum]
  · have hnat : (∑ w : Fin N, (workerInput a n w).length) = (itemsUpTo n).length := by
      have := congrArg Multiset.card (sum_workerInput_multiset a n)
      simpa [card_sum_finset, Multiset.coe_card] using this
    have : (∑ w : Fin N, amountsFinal tr w)
        = ((∑ w : Fin N, (workerInput a n w).length : Nat) : Int) := by
      rw [Nat.cast_sum]
      refine Finset.sum_congr rfl fun w _ => ?_
      rw [amountsFinal, hfb w]
    rw [this, hnat, hgen]

/-- C2: in every completed run, every item the Collector receives from chOut
is a positive integer at most the largest published item n, and the multiset
of received items is exactly the multiset of published items 1, ..., n: no
duplication, no loss, no fabrication between generation and collection. -/
theorem collected_items_exact {N : Nat} (n : Nat) (hN : 1 ≤ N) (a : Nat → Fin N)
    (tr : List (MLabel N)) (s : MergeState N)
    (hrun : MTrace (initMerge fun w => workerOut (workerRunP (workerInput a n w))) tr s)
    (hdone : s.closed = true) :
    (∀ x ∈ s.res, 1 ≤ x ∧ x ≤ (n : Int))
    ∧ (s.res : Multiset Int) = (itemsUpTo n : Multiset Int) := by
  obtain ⟨-, hres⟩ := completed_run_res n a hrun hdone
  refine ⟨?_, hres⟩
  intro x hx
  have hx2 : x ∈ itemsUpTo n := by
    have : x ∈ (itemsUpTo n : Multiset Int) := by
      rw [← hres]
      exact hx
    simpa using this
  rw [itemsUpTo] at hx2
  obtain ⟨k, hk, rfl⟩ := List.mem_map.mp hx2
  have hk2 : k < n := List.mem_range.mp hk
  constructor
  · omega
  · omega

/-- Worker outputs for the concrete two-coordinator run exhibiting a
non-sequential chOut order. -/
def exOuts : Fin 2 → List Int := fun i => if i = 0 then [1] else [2]

/-- C3: the fan-in of src/precode.go assigns one independent coordinator per
worker output: along every execution each coordinator forwards exactly the
items of its own output channel, in that channel's order, until it closes
(first conjunct); a coordinator with a pending item can always take a step
regardless of the progress of the other coordinators (second conjunct); and
the outputs are not drained one at a time in index order: a completed
execution can put items on chOut in an order different from the sequential
drain of src/precode1.go (third conjunct). -/
theorem merge_drains_concurrently :
    (∀ (N : Nat) (outs : Fin N → List Int) (tr : List (MLabel N)) (s : MergeState N),
        MTrace (initMerge outs) tr s → ∀ i, forwardedBy tr i ++ s.pending i = outs i)
    ∧ (∀ (N : Nat) (s : MergeState N) (i : Fin N) (x : Int) (rest : List Int),
        s.pending i = x :: rest → s.done i = false →
        MStep s (MLabel.fwd i x)
          { s with pending := Function.update s.pending i rest, res := s.res ++ [x] })
    ∧ (∃ (tr : List (MLabel 2)) (s : MergeState 2),
        MTrace (initMerge exOuts) tr s ∧ s.closed = true
          ∧ s.res ≠ mergeSequentialRes exOuts) := by
  refine ⟨?_, ?_, ?_⟩
  · intro N outs tr s h i
    exact (mergeMaster outs h).1 i
  · intro N s i x rest hp hd
    exact MStep.fwd s i x rest hp hd
  · refine ⟨_, _,
      MTrace.snoc (MTrace.snoc (MTrace.snoc (MTrace.snoc (MTrace.snoc
        (MTrace.refl (initMerge exOuts))
        (MStep.fwd _ 1 2 [] rfl rfl))
        (MStep.fwd _ 0 1 [] (by decide) rfl))
        (MStep.fin _ 0 (by decide) rfl))
        (MStep.fin _ 1 (by decide) (by decide)))
        (MStep.closeRes _ (by decide) rfl),
      rfl, by decide⟩

/-- C4: in every fan-in execution the close of chOut happens only after every
coordinator has returned (all coordinator returns precede it in the trace),
nothing — in particular no send into chOut — follows it, a completed run
contains it, and from a closed state no fan-in step (no send on the closed
channel) is possible, for any N. -/
theorem chOut_closed_once {N : Nat} (outs : Fin N → List Int)
    (tr : List (MLabel N)) (s : MergeState N)
    (hrun : MTrace (initMerge outs) tr s) :
    (∀ pre post, tr = pre ++ MLabel.closeRes :: post →
        post = [] ∧ ∀ i, MLabel.fin i ∈ pre)
    ∧ (s.closed = true → MLabel.closeRes ∈ tr)
    ∧ (s.closed = true → ∀ (l : MLabel N) (u : MergeState N), ¬ MStep s l u) := by
  refine ⟨closeRes_last outs hrun, ?_, ?_⟩
  · intro h
    exact (mergeMaster outs hrun).2.2.2.2.1.mp h
  · intro h
    exact closed_no_step ((mergeMaster outs hrun).2.2.2.2.2 h) h

/-- C5 (amended): every worker repeatedly takes one item from the shared
intake, forwards it unchanged to its private output and then waits the fixed
per-item delay and increments its own counter, until the intake is exhausted,
at which point it closes its output; its output is exactly its input in
consumption order and its counter ends at the number of items consumed. -/
theorem worker_per_item_contract (xs : List Int) :
    workerRun1 xs =
      (xs.map fun i => [WEvent.recv i, WEvent.send i, WEvent.sleep, WEvent.incr]).flatten
        ++ [WEvent.closeOut]
    ∧ workerOut (workerRun1 xs) = xs
    ∧ workerCounter (workerRun1 xs) = xs.length :=
  ⟨workerRun1_shape xs, workerOut_workerRun1 xs, workerCounter_workerRun1 xs⟩

/-- C5 counterexample: on the concrete input [1] the source worker sends the
item to its output before sleeping the per-item delay, so the claimed
per-item order (wait the delay, then forward) is false: the actual trace
differs from the claimed one exactly by the position of the sleep. -/
theorem worker_delay_order_cex :
    workerRun1 [1] ≠ workerRunSpec [1]
    ∧ workerRun1 [1]
        = [WEvent.recv 1, WEvent.send 1, WEvent.sleep, WEvent.incr, WEvent.closeOut]
    ∧ workerRunSpec [1]
        = [WEvent.recv 1, WEvent.sleep, WEvent.send 1, WEvent.incr, WEvent.closeOut] :=
  ⟨by decide, rfl, rfl⟩

/-- C6: the Generator publishes the consecutive items 1, 2, 3, ... in order,
invoking the observer with each published value directly after its publish
and before the next publish (the trace is exactly publish 1, observe 1,
publish 2, observe 2, ...), and consequently generated-count is the number of
published items and generated-sum is their sum. -/
theorem generator_publish_observe_order (n : Nat) :
    generatorTrace n =
      ((itemsUpTo n).map fun v => [GenEvent.publish v, GenEvent.observe v]).flatten
        ++ [GenEvent.closeIntake]
    ∧ publishedItems (generatorTrace n) = itemsUpTo n
    ∧ genTallies (generatorTrace n)
        = ((publishedItems (generatorTrace n)).sum,
            ((publishedItems (generatorTrace n)).length : Int)) := by
  refine ⟨?_, publishedItems_generatorTrace n, genTallies_trace n⟩
  rw [generatorTrace, generatorRun_shape, itemsUpTo, List.map_map]
  refine congrArg (fun l => List.flatten l ++ [GenEvent.closeIntake]) ?_
  refine List.map_congr_left fun k _ => ?_
  have h : (1 : Int) + (k : Int) = (k : Int) + 1 := by ring
  simp [Function.comp, h]

/-- C7: when the Generator observes cancellation it closes the intake channel
and returns: every Generator trace contains the close exactly once, and
nothing — in particular no publish — follows it. -/
theorem generator_close_once (n : Nat) :
    ((generatorTrace n).filter fun e => e = GenEvent.closeIntake).length = 1
    ∧ ∀ pre post, generatorTrace n = pre ++ GenEvent.closeIntake :: post → post = [] := by
  have hshape := generatorRun_shape n 1
  have hnotin : GenEvent.closeIntake ∉
      ((List.range n).map fun k : Nat =>
        [GenEvent.publish (1 + (k : Int)), GenEvent.observe (1 + (k : Int))]).flatten := by
    intro hmem
    rcases List.mem_flatten.mp hmem with ⟨l, hl, hcl⟩
    rcases List.mem_map.mp hl with ⟨k, -, rfl⟩
    simp at hcl
  constructor
  · rw [generatorTrace, hshape, List.filter_append]
    have h1 : (((List.range n).map fun k : Nat =>
        [GenEvent.publish (1 + (k : Int)), GenEvent.observe (1 + (k : Int))]).flatten).filter
          (fun e => e = GenEvent.closeIntake) = [] := by
      rw [List.filter_eq_nil_iff]
      intro a ha
      simp only [decide_eq_true_eq]
      intro haeq
      rw [haeq] at ha
      exact hnotin ha
    rw [h1]
    rfl
  · intro pre post heq
    rw [generatorTrace, hshape] at heq
    exact (append_one_eq_split heq hnotin).2

/-! ## Verifier tail of main (src/precode.go lines 122-138;
src/precode1.go lines 87-104) -/

/-- Which of the three log.Fatalf checks fired. -/
inductive VerifyFailure
  | sums
  | counts
  | split
deriving DecidableEq, Repr

/-- Observable outcome of the tail of main: the three printed report lines,
which check aborted the run (none if all passed), and the final value of the
inputCount variable. -/
structure MainReport where
  printedCounts : Int × Int
  printedSums : Int × Int
  printedAmounts : List Int
  failure : Option VerifyFailure
  inputCountFinal : Int
deriving DecidableEq, Repr

/-- Embedding of the tail of main: print the three report lines, then if
inputSum != sum abort (sums), else if inputCount != count abort (counts),
else destructively run inputCount -= v over amounts and abort (split) if the
result is nonzero; otherwise return normally. log.Fatalf terminates the
process, so a failing check freezes inputCount at its value at that point. -/
def mainTail (inputSum inputCount sum count : Int) (amounts : List Int) : MainReport :=
  if inputSum ≠ sum then
    { printedCounts := (inputCount, count), printedSums := (inputSum, sum),
      printedAmounts := amounts, failure := some VerifyFailure.sums,
      inputCountFinal := inputCount }
  else if inputCount ≠ count then
    { printedCounts := (inputCount, count), printedSums := (inputSum, sum),
      printedAmounts := amounts, failure := some VerifyFailure.counts,
      inputCountFinal := inputCount }
  else if amounts.foldl (fun acc v => acc - v) inputCount ≠ 0 then
    { printedCounts := (inputCount, count), printedSums := (inputSum, sum),
      printedAmounts := amounts, failure := some VerifyFailure.split,
      inputCountFinal := amounts.foldl (fun acc v => acc - v) inputCount }
  else
    { printedCounts := (inputCount, count), printedSums := (inputSum, sum),
      printedAmounts := amounts, failure := none,
      inputCountFinal := amounts.foldl (fun acc v => acc - v) inputCount }

theorem foldl_sub_eq (amounts : List Int) : ∀ acc : Int,
    amounts.foldl (fun acc v => acc - v) acc = acc - amounts.sum := by
  induction amounts with
  | nil => intro acc; simp
  | cons v rest ih =>
      intro acc
      rw [List.foldl_cons, ih]
      simp only [List.sum_cons]
      ring

theorem mainTail_failure_spec (inputSum inputCount sum count : Int) (amounts : List Int) :
    (inputSum ≠ sum →
      (mainTail inputSum inputCount sum count amounts).failure = some VerifyFailure.sums)
    ∧ (inputSum = sum → inputCount ≠ count →
      (mainTail inputSum inputCount sum count amounts).failure = some VerifyFailure.counts)
    ∧ (inputSum = sum → inputCount = count → inputCount - amounts.sum ≠ 0 →
      (mainTail inputSum inputCount sum count amounts).failure = some VerifyFailure.split)
    ∧ (inputSum = sum → inputCount = count → inputCount - amounts.sum = 0 →
      (mainTail inputSum inputCount sum count amounts).failure = none) := by
  refine ⟨?_, ?_, ?_, ?_⟩
  · intro h1
    rw [mainTail, if_pos h1]
  · intro h1 h2
    rw [mainTail, if_neg (by simpa using h1), if_pos h2]
  · intro h1 h2 h3
    rw [mainTail, if_neg (by simpa using h1), if_neg (by simpa using h2),
      if_pos (by rw [foldl_sub_eq]; exact h3)]
  · intro h1 h2 h3
    rw [mainTail, if_neg (by simpa using h1), if_neg (by simpa using h2),
      if_neg (by rw [foldl_sub_eq]; simpa using h3)]

/-- C8: the verifier compares sums first, then counts, then the per-worker
split, aborting with a distinct diagnostic at the first check that fails —
the failure value is terminal, there is no recovery path in mainTail — and
it returns normally exactly when all three equalities hold. -/
theorem verifier_check_order (inputSum inputCount sum count : Int) (amounts : List Int) :
    (inputSum ≠ sum →
      (mainTail inputSum inputCount sum count amounts).failure = some VerifyFailure.sums)
    ∧ (inputSum = sum → inputCount ≠ count →
      (mainTail inputSum inputCount sum count amounts).failure = some VerifyFailure.counts)
    ∧ (inputSum = sum → inputCount = count → inputCount - amounts.sum ≠ 0 →
      (mainTail inputSum inputCount sum count amounts).failure = some VerifyFailure.split)
    ∧ (inputSum = sum → inputCount = count → inputCount - amounts.sum = 0 →
      (mainTail inputSum inputCount sum count amounts).failure = none) :=
  mainTail_failure_spec inputSum inputCount sum count amounts

/-- C10: the three report lines are printed before the checks run, so the
printed generated-count is the true inputCount; the third check then
destructively subtracts every per-worker amount from the inputCount variable
in place, so when the first two checks pass the variable ends at
inputCount - sum of amounts, and after a fully successful run it ends at 0 —
not at the generated count, whenever that count is nonzero. -/
theorem verifier_destructive_subtraction (inputSum inputCount sum count : Int)
    (amounts : List Int) :
    (mainTail inputSum inputCount sum count amounts).printedCounts.1 = inputCount
    ∧ (inputSum = sum → inputCount = count →
        (mainTail inputSum inputCount sum count amounts).inputCountFinal
          = inputCount - amounts.sum)
    ∧ ((mainTail inputSum inputCount sum count amounts).failure = none →
        (mainTail inputSum inputCount sum count amounts).inputCountFinal = 0)
    ∧ ((mainTail inputSum inputCount sum count amounts).failure = none →
        inputCount ≠ 0 →
        (mainTail inputSum inputCount sum count amounts).inputCountFinal ≠ inputCount) := by
  have hchar : ∀ h1 : inputSum = sum, ∀ h2 : inputCount = count,
      (mainTail inputSum inputCount sum count amounts).inputCountFinal
        = inputCount - amounts.sum := by
    intro h1 h2
    rw [mainTail, if_neg (by simpa using h1), if_neg (by simpa using h2)]
    by_cases h3 : amounts.foldl (fun acc v => acc - v) inputCount ≠ 0
    · rw [if_pos h3]
      exact foldl_sub_eq amounts inputCount
    · rw [if_neg h3]
      exact foldl_sub_eq amounts inputCount
  refine ⟨?_, hchar, ?_, ?_⟩
  · rw [mainTail]
    split_ifs <;> rfl
  · intro hf
    by_cases h1 : inputSum = sum
    · by_cases h2 : inputCount = count
      · by_cases h3 : inputCount - amounts.sum = 0
        · rw [hchar h1 h2, h3]
        · exfalso
          have := (mainTail_failure_spec inputSum inputCount sum count amounts).2.2.1 h1 h2 h3
          rw [hf] at this
          cases this
      · exfalso
        have := (mainTail_failure_spec inputSum inputCount sum count amounts).2.1 h1 h2
        rw [hf] at this
        cases this
    · exfalso
      have := (mainTail_failure_spec inputSum inputCount sum count amounts).1 h1
      rw [hf] at this
      cases this
  · intro hf hnz
    by_cases h1 : inputSum = sum
    · by_cases h2 : inputCount = count
      · by_cases h3 : inputCount - amounts.sum = 0
        · rw [hchar h1 h2, h3]
          exact fun h => hnz h.symm
        · exfalso
          have := (mainTail_failure_spec inputSum inputCount sum count amounts).2.2.1 h1 h2 h3
          rw [hf] at this
          cases this
      · exfalso
        have := (mainTail_failure_spec inputSum inputCount sum count amounts).2.1 h1 h2
        rw [hf] at this
        cases this
    · exfalso
      have := (mainTail_failure_spec inputSum inputCount sum count amounts).1 h1
      rw [hf] at this
      cases this

/-! ## Concrete witnesses -/

/-- Witness for C1: the run with n = 1 generated item, N = 1 worker, and the
three-step fan-in execution forwarding the single item. -/
theorem pipeline_tallies_agree_witness :
    (genTallies (generatorTrace 1)).2 = (collect [(1 : Int)]).1
    ∧ (genTallies (generatorTrace 1)).1 = (collect [(1 : Int)]).2
    ∧ (∑ w : Fin 1, amountsFinal [MLabel.fwd 0 1, MLabel.fin 0, MLabel.closeRes] w)
        = (genTallies (generatorTrace 1)).2 :=
  pipeline_tallies_agree (N := 1) 1 (by decide) (fun _ => 0) _ _
    (MTrace.snoc (MTrace.snoc (MTrace.snoc (MTrace.refl _)
      (MStep.fwd _ 0 1 [] (by decide) rfl))
      (MStep.fin _ 0 (by decide) rfl))
      (MStep.closeRes _ (by decide) rfl))
    rfl

/-- Witness for C2: the run with n = 2 generated items and N = 1 worker. -/
theorem collected_items_exact_witness :
    ((1 : Int) ≤ 2 ∧ (2 : Int) ≤ ((2 : Nat) : Int))
    ∧ (([1, 2] : List Int) : Multiset Int) = (itemsUpTo 2 : Multiset Int) := by
  have h := collected_items_exact (N := 1) 2 (by decide) (fun _ => 0) _ _
    (MTrace.snoc (MTrace.snoc (MTrace.snoc (MTrace.snoc (MTrace.refl _)
      (MStep.fwd _ 0 1 [2] (by decide) rfl))
      (MStep.fwd _ 0 2 [] (by decide) rfl))
      (MStep.fin _ 0 (by decide) rfl))
      (MStep.closeRes _ (by decide) rfl))
    rfl
  exact ⟨h.1 2 (by decide), h.2⟩

/-- Worker outputs used by the C3 witness. -/
def c3wOuts : Fin 1 → List Int := fun _ => [7]

/-- Witness for C3: the per-coordinator conjunct applied to a one-step run. -/
theorem merge_drains_concurrently_witness :
    forwardedBy ([MLabel.fwd 0 7] : List (MLabel 1)) 0
      ++ Function.update c3wOuts 0 ([] : List Int) 0 = c3wOuts 0 :=
  merge_drains_concurrently.1 1 c3wOuts [MLabel.fwd 0 7] _
    (MTrace.snoc (MTrace.refl _) (MStep.fwd _ 0 7 [] rfl rfl)) 0

/-- Witness for C4: in a completed one-worker run the close of chOut is in
the trace. -/
theorem chOut_closed_once_witness :
    MLabel.closeRes ∈ ([MLabel.fwd 0 5, MLabel.fin 0, MLabel.closeRes] : List (MLabel 1)) :=
  (chOut_closed_once (fun _ => [5]) _ _
    (MTrace.snoc (MTrace.snoc (MTrace.snoc (MTrace.refl _)
      (MStep.fwd _ 0 5 [] rfl rfl))
      (MStep.fin _ 0 (by decide) rfl))
      (MStep.closeRes _ (by decide) rfl))).2.1 rfl

/-- Witness for C7: the trace with one generated item, split at its close. -/
theorem generator_close_once_witness :
    ((generatorTrace 1).filter fun e => e = GenEvent.closeIntake).length = 1
    ∧ ([] : List GenEvent) = [] :=
  ⟨(generator_close_once 1).1,
   (generator_close_once 1).2 [GenEvent.publish 1, GenEvent.observe 1] [] (by decide)⟩

/-- Witness for C8: each of the four outcomes at concrete tallies. -/
theorem verifier_check_order_witness :
    (mainTail 0 0 1 0 []).failure = some VerifyFailure.sums
    ∧ (mainTail 0 0 0 1 []).failure = some VerifyFailure.counts
    ∧ (mainTail 5 2 5 2 [1]).failure = some VerifyFailure.split
    ∧ (mainTail 5 2 5 2 [1, 1]).failure = none :=
  ⟨(verifier_check_order 0 0 1 0 []).1 (by decide),
   (verifier_check_order 0 0 0 1 []).2.1 rfl (by decide),
   (verifier_check_order 5 2 5 2 [1]).2.2.1 rfl rfl (by decide),
   (verifier_check_order 5 2 5 2 [1, 1]).2.2.2 rfl rfl (by decide)⟩

/-- Witness for C10: a successful run with generated count 2 prints the true
count but leaves the accumulator at 0. -/
theorem verifier_destructive_subtraction_witness :
    (mainTail 3 2 3 2 [1, 1]).printedCounts.1 = 2
    ∧ (mainTail 3 2 3 2 [1, 1]).inputCountFinal = 2 - ([1, 1] : List Int).sum
    ∧ (mainTail 3 2 3 2 [1, 1]).inputCountFinal = 0
    ∧ (mainTail 3 2 3 2 [1, 1]).inputCountFinal ≠ 2 := by
  have h := verifier_destructive_subtraction 3 2 3 2 [1, 1]
  exact ⟨h.1, h.2.1 rfl rfl, h.2.2.1 (by decide), h.2.2.2 (by decide) (by decide)⟩

end Sprint9
